import Mathlib

/-!
A shallow embedding of the core of src/disassembler.py, a disassembler for
2-byte fixed-width Python bytecode, together with theorems about the claims
of the specification.

Modelling conventions:
- Python byte strings become List Nat (each element a byte value).
- Python None / missing tables become Option.
- Python exceptions (TypeError, IndexError, RecursionError) become the
  PyErr type, and fallible functions return Except PyErr or pair their
  output with Option PyErr.
- Python dicts keyed by Nat become association lists kept in insertion
  order, with overwriting updates in place (matching dict semantics).
- The opcode classification tables of the dis module are external inputs
  (the specification treats them as a given lookup), so they are a
  parameter structure DisTables; sampleTables instantiates them with the
  CPython 3.8 values for concrete computations.
-/

/-- Python exceptions that the embedded code can raise. -/
inductive PyErr where
  | typeError
  | indexError
  | recursionError
deriving DecidableEq

mutual

/-- A Callable Unit (Python code object), the disassembly target.
Fields mirror the attributes read by src/disassembler.py.  The four
metadata tables are Option so that the null/absent value can be
distinguished from an empty sequence. -/
inductive CodeObj where
  | mk (co_code : List Nat) (co_consts : Option (List PyObj))
       (co_names : Option (List String)) (co_varnames : Option (List String))
       (co_cellvars : Option (List String)) (co_freevars : Option (List String))
       (co_lnotab : List Nat) (co_firstlineno : Int)

/-- Python values that can appear in a constant pool: the null value,
integers, strings, and nested code objects. -/
inductive PyObj where
  | none
  | int (n : Int)
  | str (s : String)
  | code (c : CodeObj)

end

def CodeObj.co_code : CodeObj → List Nat
  | .mk a _ _ _ _ _ _ _ => a

def CodeObj.co_consts : CodeObj → Option (List PyObj)
  | .mk _ a _ _ _ _ _ _ => a

def CodeObj.co_names : CodeObj → Option (List String)
  | .mk _ _ a _ _ _ _ _ => a

def CodeObj.co_varnames : CodeObj → Option (List String)
  | .mk _ _ _ a _ _ _ _ => a

def CodeObj.co_cellvars : CodeObj → Option (List String)
  | .mk _ _ _ _ a _ _ _ => a

def CodeObj.co_freevars : CodeObj → Option (List String)
  | .mk _ _ _ _ _ a _ _ => a

def CodeObj.co_lnotab : CodeObj → List Nat
  | .mk _ _ _ _ _ _ a _ => a

def CodeObj.co_firstlineno : CodeObj → Int
  | .mk _ _ _ _ _ _ _ a => a

/-- dis.HAVE_ARGUMENT: opcodes at or above this value carry an operand. -/
def HAVE_ARGUMENT : Nat := 90

/-- dis.EXTENDED_ARG: the extended-argument prefix opcode. -/
def EXTENDED_ARG : Nat := 144

/-- The opcode classification tables of the dis module, externally
defined lookup data (spec section 4.4 / 9). -/
structure DisTables where
  hasconst : List Nat
  hasname : List Nat
  hasjrel : List Nat
  haslocal : List Nat
  hascompare : List Nat
  hasfree : List Nat
  hasjabs : List Nat
  cmp_op : List String

/-- The CPython 3.8 classification tables, used for concrete runs. -/
def sampleTables : DisTables where
  hasconst := [100]
  hasname := [90, 91, 95, 96, 97, 98, 101, 106, 108, 109, 116, 160]
  hasjrel := [93, 110, 122, 143, 154]
  haslocal := [124, 125, 126]
  hascompare := [107]
  hasfree := [135, 136, 137, 138, 148]
  hasjabs := [111, 112, 113, 114, 115]
  cmp_op := ["<", "<=", "==", "!=", ">", ">=", "in", "not in", "is",
             "is not", "exception match", "BAD"]

/-- Instrumented form of unpack_op from src/disassembler.py: decodes the
byte sequence two bytes at a time, threading the extended_arg accumulator
exactly as the source loop does, and additionally records in each yielded
entry the accumulator value as it stands after that iteration (the last
component).  The source iterates i over range(0, len(bytecode), 2); a
trailing single byte therefore yields an instruction when its opcode is
below HAVE_ARGUMENT and raises IndexError (reading bytecode at i+1)
otherwise.  Entries are (offset, opcode, oparg, accumulator-after). -/
def unpackTrace : Nat → Nat → List Nat → Except PyErr (List (Nat × Nat × Option Nat × Nat))
  | _, _, [] => .ok []
  | ea, i, [opcode] =>
      if HAVE_ARGUMENT ≤ opcode then .error .indexError
      else .ok [(i, opcode, Option.none, ea)]
  | ea, i, opcode :: b1 :: rest =>
      if HAVE_ARGUMENT ≤ opcode then
        let oparg := Nat.lor b1 ea
        let ea2 := if opcode = EXTENDED_ARG then oparg <<< 8 else 0
        match unpackTrace ea2 (i + 2) rest with
        | .error e => .error e
        | .ok tl => .ok ((i, opcode, some oparg, ea2) :: tl)
      else
        match unpackTrace ea (i + 2) rest with
        | .error e => .error e
        | .ok tl => .ok ((i, opcode, Option.none, ea) :: tl)

/-- unpack_op from src/disassembler.py: the decoded (offset, opcode,
oparg) triples, i.e. the trace without the accumulator instrumentation. -/
def unpack_op (bytecode : List Nat) : Except PyErr (List (Nat × Nat × Option Nat)) :=
  Except.map (List.map fun q => (q.1, q.2.1, q.2.2.1)) (unpackTrace 0 0 bytecode)

/-- Elements of a list at even positions, modelling the Python slice
l[0::2] (and l[1::2] when applied to l.drop 1). -/
def sliceEvery2 : List Nat → List Nat
  | [] => []
  | [a] => [a]
  | a :: _ :: rest => a :: sliceEvery2 rest

/-- The signed reinterpretation of a line-increment byte performed inside
find_linestarts: values at or above 0x80 stand for negative deltas. -/
def signedLineIncr (line_incr : Nat) : Int :=
  if 0x80 ≤ line_incr then (line_incr : Int) - 0x100 else (line_incr : Int)

/-- Python dict assignment d[k] = v on an insertion-ordered association
list: an existing key keeps its position and gets the new value, a new
key is appended at the end. -/
def dictSet (d : List (Nat × Int)) (k : Nat) (v : Int) : List (Nat × Int) :=
  if d.any (fun p => p.1 = k) then
    d.map (fun p => if p.1 = k then (k, v) else p)
  else d ++ [(k, v)]

/-- Python dict lookup d.get(k, None). -/
def dictGet (d : List (Nat × Int)) (k : Nat) : Option Int :=
  (d.find? (fun p => p.1 = k)).map (fun p => p.2)

/-- find_linestarts from src/disassembler.py: unzips co_lnotab into byte
and line increments, starts from offset 0 at co_firstlineno, and folds
each increment pair into the running offset and line, recording every
step in the dict. -/
def find_linestarts (codeobj : CodeObj) : List (Nat × Int) :=
  let byte_increments := sliceEvery2 codeobj.co_lnotab
  let line_increments := sliceEvery2 (codeobj.co_lnotab.drop 1)
  let final := (byte_increments.zip line_increments).foldl
    (fun (st : Nat × Int × List (Nat × Int)) (p : Nat × Nat) =>
      let byte := st.1 + p.1
      let line := st.2.1 + signedLineIncr p.2
      (byte, line, dictSet st.2.2 byte line))
    (0, codeobj.co_firstlineno, [(0, codeobj.co_firstlineno)])
  final.2.2

/-- The resolved operand value returned by get_argvalue.  vNone is the
Python None that the source initializes argval with (the "absent" value);
vStr covers every string result (names, comparison operators, and the
repr of string or None constants); vObj is a constant returned as the
object itself; vFuncRef stands for the string "to " ++ repr(get_argvalue)
that the source builds for relative jumps — a reference to the resolving
function itself rather than any destination offset. -/
inductive ArgVal where
  | vNone
  | vStr (s : String)
  | vObj (o : PyObj)
  | vFuncRef
deriving Inhabited

/-- repr of a Python string: the text wrapped in single quotes (escaping
of embedded quotes is elided; no claim depends on it). -/
def pyReprOfStr (s : String) : String :=
  String.singleton (Char.ofNat 39) ++ s ++ String.singleton (Char.ofNat 39)

/-- get_argvalue from src/disassembler.py.  The source first reads all
four metadata tables; computing cell_names = co_cellvars + co_freevars
raises TypeError when either attribute is the null value (None does not
support +), before any category dispatch.  Dispatch then follows the
elif chain of the source.  Indexing a table with a None oparg raises
TypeError; indexing past the end raises IndexError. -/
def get_argvalue (D : DisTables) (offset : Nat) (codeobj : CodeObj)
    (opcode : Nat) (oparg : Option Nat) : Except PyErr ArgVal :=
  match codeobj.co_cellvars, codeobj.co_freevars with
  | Option.none, _ => .error .typeError
  | _, Option.none => .error .typeError
  | some cv, some fv =>
    let constants := codeobj.co_consts
    let varnames := codeobj.co_varnames
    let names := codeobj.co_names
    let cell_names := cv ++ fv
    if opcode ∈ D.hasconst then
      match constants with
      | Option.none => .ok .vNone
      | some cs =>
        match oparg with
        | Option.none => .error .typeError
        | some a =>
          match cs.get? a with
          | Option.none => .error .indexError
          | some v =>
            match v with
            | .str s => .ok (.vStr (pyReprOfStr s))
            | .none => .ok (.vStr "None")
            | _ => .ok (.vObj v)
    else if opcode ∈ D.hasname then
      match names with
      | Option.none => .ok .vNone
      | some ns =>
        match oparg with
        | Option.none => .error .typeError
        | some a =>
          match ns.get? a with
          | Option.none => .error .indexError
          | some s => .ok (.vStr s)
    else if opcode ∈ D.hasjrel then
      match oparg with
      | Option.none => .error .typeError
      | some a =>
        -- the source computes the destination offset + 2 + oparg, then
        -- immediately overwrites it with "to " + repr(get_argvalue)
        let _destination := offset + 2 + a
        .ok .vFuncRef
    else if opcode ∈ D.haslocal then
      match varnames with
      | Option.none => .ok .vNone
      | some vs =>
        match oparg with
        | Option.none => .error .typeError
        | some a =>
          match vs.get? a with
          | Option.none => .error .indexError
          | some s => .ok (.vStr s)
    else if opcode ∈ D.hascompare then
      match oparg with
      | Option.none => .error .typeError
      | some a =>
        match D.cmp_op.get? a with
        | Option.none => .error .indexError
        | some s => .ok (.vStr s)
    else if opcode ∈ D.hasfree then
      match oparg with
      | Option.none => .error .typeError
      | some a =>
        match cell_names.get? a with
        | Option.none => .error .indexError
        | some s => .ok (.vStr s)
    else .ok .vNone

/-- The loop body of find_labels from src/disassembler.py, folding over
the decoded instructions with the labels accumulator.  A relative-jump
opcode with a None oparg raises TypeError (offset + 2 + None); an
absolute-jump opcode stores oparg itself, even when it is None.  A label
is appended only when not already present. -/
def labelsLoop (D : DisTables) (labels : List (Option Nat)) :
    List (Nat × Nat × Option Nat) → Except PyErr (List (Option Nat))
  | [] => .ok labels
  | (offset, opcode, oparg) :: rest =>
    if opcode ∈ D.hasjrel then
      match oparg with
      | Option.none => .error .typeError
      | some a =>
        let label := some (offset + 2 + a)
        labelsLoop D (if label ∈ labels then labels else labels ++ [label]) rest
    else if opcode ∈ D.hasjabs then
      let label := oparg
      labelsLoop D (if label ∈ labels then labels else labels ++ [label]) rest
    else labelsLoop D labels rest

/-- find_labels from src/disassembler.py: scans the unit's decoded
instruction stream once and collects jump destinations. -/
def find_labels (D : DisTables) (codeobj : CodeObj) : Except PyErr (List (Option Nat)) :=
  match unpack_op codeobj.co_code with
  | .error e => .error e
  | .ok instrs => labelsLoop D [] instrs

/-- One emitted record of the disassembly engine.  An instr record keeps
the data that the format string of the source renders (source line if
this offset starts one, the jump-target marker, offset, opcode, raw
operand, resolved value); a header record is the
"Disassembly of <code object>:" line printed before a nested unit.
Pure text layout is out of scope (spec section 1). -/
inductive Record where
  | instr (line : Option Int) (isTarget : Bool) (offset : Nat) (opcode : Nat)
          (oparg : Option Nat) (argvalue : ArgVal)
  | header (c : CodeObj)

/-- The per-instruction loop of disassemble from src/disassembler.py:
resolves each operand, collects resolved values that are themselves code
objects (in encounter order), and builds one record per instruction.  An
error from get_argvalue aborts the loop, keeping the records already
emitted. -/
def disLoop (D : DisTables) (c : CodeObj) (linestarts : List (Nat × Int))
    (labels : List (Option Nat)) :
    List (Nat × Nat × Option Nat) → List Record × List CodeObj × Option PyErr
  | [] => ([], [], Option.none)
  | (offset, opcode, oparg) :: rest =>
    match get_argvalue D offset c opcode oparg with
    | .error e => ([], [], some e)
    | .ok argvalue =>
      let line_start := dictGet linestarts offset
      let r := Record.instr line_start (some offset ∈ labels) offset opcode oparg argvalue
      let tail := disLoop D c linestarts labels rest
      let cos :=
        match argvalue with
        | .vObj (.code oc) => oc :: tail.2.1
        | _ => tail.2.1
      (r :: tail.1, cos, tail.2.2)

/-- The trailing loop of disassemble: for each collected nested code
object, print its header and disassemble it.  The recursive call is
supplied as a function argument so that disassemble can recurse on its
fuel.  An error in a child stops the traversal after that child. -/
def disChildren (recur : CodeObj → List Record × Option PyErr) :
    List CodeObj → List Record × Option PyErr
  | [] => ([], Option.none)
  | oc :: rest =>
    let r := recur oc
    match r.2 with
    | some err => (Record.header oc :: r.1, some err)
    | Option.none =>
      let r2 := disChildren recur rest
      (Record.header oc :: r.1 ++ r2.1, r2.2)

/-- disassemble from src/disassembler.py.  A value without the co_code
attribute is rejected with TypeError at once, with nothing emitted.  For
a code object the source computes find_linestarts and find_labels (the
latter fully decodes the stream, so a malformed stream errors here,
before any record), then runs the per-instruction loop, then recurses
into the collected nested code objects.  The source relies on the Python
call stack for that recursion; the fuel argument models the recursion
limit (RecursionError when exhausted), which no fixed input depth can
exceed when fuel is chosen at least the nesting depth. -/
def disassemble (D : DisTables) : Nat → PyObj → List Record × Option PyErr
  | _, .none => ([], some .typeError)
  | _, .int _ => ([], some .typeError)
  | _, .str _ => ([], some .typeError)
  | 0, .code _ => ([], some .recursionError)
  | fuel + 1, .code c =>
    let linestarts := find_linestarts c
    match find_labels D c with
    | .error e => ([], some e)
    | .ok labels =>
      match unpack_op c.co_code with
      | .error e => ([], some e)
      | .ok instrs =>
        match disLoop D c linestarts labels instrs with
        | (recs, _, some e) => (recs, some e)
        | (recs, cos, Option.none) =>
          let childs := disChildren (fun oc => disassemble D fuel (.code oc)) cos
          (recs ++ childs.1, childs.2)

/-- Convenience builder for a Callable Unit whose name tables are present
and empty; only code, constants, line table and first line vary. -/
def mkUnit (code : List Nat) (consts : List PyObj) (lnotab : List Nat)
    (firstlineno : Int) : CodeObj :=
  .mk code (some consts) (some []) (some []) (some []) (some []) lnotab firstlineno

/-- The number of encoded (byte-increment, line-increment) delta pairs in
the line table of a unit, as find_linestarts pairs them up. -/
def lnotabPairCount (codeobj : CodeObj) : Nat :=
  ((sliceEvery2 codeobj.co_lnotab).zip (sliceEvery2 (codeobj.co_lnotab.drop 1))).length

/-- The jump destinations contributed by a decoded instruction stream, in
scan order and with repetitions: relative jumps contribute
offset + 2 + oparg, absolute jumps contribute the raw operand.  (A
relative jump with an absent operand makes find_labels raise, so its
treatment here is irrelevant under a successful run.) -/
def scanTargets (D : DisTables) : List (Nat × Nat × Option Nat) → List (Option Nat)
  | [] => []
  | (offset, opcode, oparg) :: rest =>
    if opcode ∈ D.hasjrel then
      match oparg with
      | some a => some (offset + 2 + a) :: scanTargets D rest
      | Option.none => scanTargets D rest
    else if opcode ∈ D.hasjabs then oparg :: scanTargets D rest
    else scanTargets D rest

/-- Deduplication keeping the first occurrence of each element, in order
of first appearance. -/
def firstDedup : List (Option Nat) → List (Option Nat)
  | [] => []
  | a :: t => a :: firstDedup (t.filter (fun x => x ≠ a))
termination_by l => l.length
decreasing_by
  simp only [List.length_cons]
  exact Nat.lt_succ_of_le (List.length_filter_le _ t)

/-- The nested code object discovered at one instruction, if its resolved
operand value is a callable unit (the hasattr co_code probe of the
source). -/
def resolvedCodeObj (D : DisTables) (c : CodeObj) (t : Nat × Nat × Option Nat) :
    Option CodeObj :=
  match get_argvalue D t.1 c t.2.1 t.2.2 with
  | .ok (ArgVal.vObj (PyObj.code oc)) => some oc
  | _ => Option.none

/-- Nested unit loading the constant None. -/
def nestedUnit1 : CodeObj := mkUnit [100, 0, 83, 0] [.none] [] 1

/-- Nested unit loading the constant 7. -/
def nestedUnit2 : CodeObj := mkUnit [100, 0, 83, 0] [.int 7] [] 1

/-- Parent unit whose constant pool is [5, nestedUnit1, "B", nestedUnit2]
and whose code loads those four constants in order. -/
def parentUnit : CodeObj :=
  mkUnit [100, 0, 100, 1, 100, 2, 100, 3]
    [.int 5, .code nestedUnit1, .str "B", .code nestedUnit2] [] 1

/-- A unit with two relative jumps that share the destination 4 and one
absolute jump to 6. -/
def jumpUnit : CodeObj := mkUnit [110, 2, 110, 0, 113, 6] [] [] 1

/-- The unit of the line-table example: first line 10, delta pairs
(0,0), (4,1), (6,-1) encoded as bytes [0,0,4,1,6,255]. -/
def lineUnit : CodeObj := mkUnit [] [] [0, 0, 4, 1, 6, 255] 10

/-- A unit whose cell-variable table is the null value while every other
table is present. -/
def nullCellUnit : CodeObj :=
  .mk [] (some []) (some []) (some []) Option.none (some []) [] 1

/-- A unit whose constant pool is the null value while every other table
is present. -/
def nullConstsUnit : CodeObj :=
  .mk [] Option.none (some []) (some []) (some []) (some []) [] 1

/-- The hasattr(c, co_code) probe that disassemble performs on its
argument: true exactly for code objects. -/
def hasCoCode : PyObj → Bool
  | .code _ => true
  | _ => false

/-- The full output of disassembling parentUnit with recursion room for
one nested level. -/
def parentOut : List Record :=
  (disassemble sampleTables 2 (PyObj.code parentUnit)).1


theorem unpackTrace_acc : ∀ (bc : List Nat) (ea i : Nat)
    (tr : List (Nat × Nat × Option Nat × Nat)),
    unpackTrace ea i bc = .ok tr →
    ∀ e ∈ tr,
      (HAVE_ARGUMENT ≤ e.2.1 → e.2.1 ≠ EXTENDED_ARG → e.2.2.2 = 0) ∧
      (e.2.1 = EXTENDED_ARG → ∃ v, e.2.2.1 = some v ∧ e.2.2.2 = v <<< 8)
  | [], _, _, tr => by
    intro h e he
    simp only [unpackTrace] at h
    injection h with h
    subst h
    simp at he
  | [opcode], ea, i, tr => by
    intro h e he
    simp only [unpackTrace] at h
    split at h
    · exact Except.noConfusion h
    next hlt =>
      injection h with h
      subst h
      simp only [List.mem_singleton] at he
      subst he
      refine ⟨fun h90 _ => absurd h90 hlt, fun hext => absurd ?_ hlt⟩
      simp only at hext
      rw [hext]
      decide
  | opcode :: b1 :: rest, ea, i, tr => by
    intro h e he
    simp only [unpackTrace] at h
    split at h
    next h90 =>
      split at h
      · exact Except.noConfusion h
      next tl hr =>
        injection h with h
        subst h
        rcases List.mem_cons.mp he with he | he
        · subst he
          constructor
          · intro _ hne
            simp only at hne ⊢
            rw [if_neg hne]
          · intro hext
            simp only at hext ⊢
            exact ⟨Nat.lor b1 ea, rfl, by rw [if_pos hext]⟩
        · exact unpackTrace_acc rest _ (i + 2) _ hr e he
    next h90 =>
      split at h
      · exact Except.noConfusion h
      next tl hr =>
        injection h with h
        subst h
        rcases List.mem_cons.mp he with he | he
        · subst he
          refine ⟨fun hge _ => absurd hge h90, fun hext => absurd ?_ h90⟩
          simp only at hext
          rw [hext]
          decide
        · exact unpackTrace_acc rest _ (i + 2) _ hr e he

theorem unpackTrace_offsets : ∀ (bc : List Nat) (ea i : Nat)
    (tr : List (Nat × Nat × Option Nat × Nat)),
    unpackTrace ea i bc = .ok tr →
    (∀ e ∈ tr, i ≤ e.1) ∧ (tr.map (fun e => e.1)).Pairwise (· < ·)
  | [], _, _, tr => by
    intro h
    simp only [unpackTrace] at h
    injection h with h
    subst h
    simp
  | [opcode], ea, i, tr => by
    intro h
    simp only [unpackTrace] at h
    split at h
    · exact Except.noConfusion h
    · injection h with h
      subst h
      simp
  | opcode :: b1 :: rest, ea, i, tr => by
    intro h
    simp only [unpackTrace] at h
    split at h <;> split at h <;> try exact Except.noConfusion h
    all_goals
      next tl hr =>
        injection h with h
        subst h
        obtain ⟨ihlb, ihpw⟩ := unpackTrace_offsets rest _ (i + 2) _ hr
        constructor
        · intro e he
          rcases List.mem_cons.mp he with he | he
          · subst he; exact Nat.le_refl i
          · exact Nat.le_trans (Nat.le_add_right i 2) (ihlb e he)
        · refine List.pairwise_cons.mpr ⟨?_, ihpw⟩
          intro x hx
          obtain ⟨e, he, hex⟩ := List.mem_map.mp hx
          subst hex
          have hlb := ihlb e he
          simp only
          omega

theorem firstDedup_mem (l : List (Option Nat)) : ∀ (x : Option Nat), x ∈ firstDedup l ↔ x ∈ l := by
  induction l using firstDedup.induct with
  | case1 => simp [firstDedup]
  | case2 a t ih =>
    intro x
    rw [firstDedup]
    simp only [List.mem_cons]
    constructor
    · rintro (rfl | hx)
      · exact Or.inl rfl
      · exact Or.inr (List.mem_of_mem_filter ((ih x).mp hx))
    · rintro (rfl | hx)
      · exact Or.inl rfl
      · by_cases hxa : x = a
        · exact Or.inl hxa
        · exact Or.inr ((ih x).mpr (List.mem_filter.mpr ⟨hx, by simp [hxa]⟩))

theorem firstDedup_nodup (l : List (Option Nat)) : (firstDedup l).Nodup := by
  induction l using firstDedup.induct with
  | case1 => simp [firstDedup]
  | case2 a t ih =>
    rw [firstDedup]
    refine List.nodup_cons.mpr ⟨?_, ih⟩
    intro hmem
    have := List.mem_filter.mp ((firstDedup_mem _ a).mp hmem)
    simp at this

theorem dedupAccStep (acc : List (Option Nat)) (label : Option Nat)
    (T : List (Option Nat)) (hin : ¬ label ∈ acc) :
    acc ++ [label] ++ firstDedup (T.filter (fun x => ¬ x ∈ (acc ++ [label]))) =
    acc ++ firstDedup ((label :: T).filter (fun x => ¬ x ∈ acc)) := by
  conv_rhs => rw [List.filter_cons_of_pos (by simp [hin]), firstDedup]
  rw [List.append_assoc]
  refine congrArg (acc ++ ·) ?_
  show label :: _ = label :: _
  refine congrArg (label :: ·) ?_
  rw [List.filter_filter]
  refine congrArg firstDedup (List.filter_congr ?_)
  intro x _
  simp only [List.mem_append, List.mem_singleton, not_or, Bool.decide_and]
  rw [Bool.and_comm]

theorem labelsLoop_eq (D : DisTables) (instrs : List (Nat × Nat × Option Nat)) :
    ∀ (acc ls : List (Option Nat)),
    labelsLoop D acc instrs = .ok ls →
    ls = acc ++ firstDedup ((scanTargets D instrs).filter (fun x => ¬ x ∈ acc)) := by
  induction instrs with
  | nil =>
    intro acc ls h
    simp only [labelsLoop] at h
    injection h with h
    subst h
    simp [scanTargets, firstDedup]
  | cons t rest ih =>
    intro acc ls h
    obtain ⟨offset, opcode, oparg⟩ := t
    by_cases hjrel : opcode ∈ D.hasjrel
    · cases oparg with
      | none =>
        simp only [labelsLoop, if_pos hjrel] at h
        exact Except.noConfusion h
      | some a =>
        simp only [labelsLoop, if_pos hjrel] at h
        simp only [scanTargets, if_pos hjrel]
        by_cases hin : some (offset + 2 + a) ∈ acc
        · rw [if_pos hin] at h
          rw [ih acc ls h, List.filter_cons_of_neg (by simp [hin])]
        · rw [if_neg hin] at h
          rw [ih (acc ++ [some (offset + 2 + a)]) ls h]
          exact dedupAccStep acc _ _ hin
    · simp only [labelsLoop, if_neg hjrel] at h
      by_cases hjabs : opcode ∈ D.hasjabs
      · rw [if_pos hjabs] at h
        simp only [scanTargets, if_neg hjrel, if_pos hjabs]
        by_cases hin : oparg ∈ acc
        · rw [if_pos hin] at h
          rw [ih acc ls h, List.filter_cons_of_neg (by simp [hin])]
        · rw [if_neg hin] at h
          rw [ih (acc ++ [oparg]) ls h]
          exact dedupAccStep acc _ _ hin
      · rw [if_neg hjabs] at h
        rw [ih acc ls h]
        simp only [scanTargets, if_neg hjrel, if_neg hjabs]

theorem scanTargets_mem (D : DisTables) (instrs : List (Nat × Nat × Option Nat)) :
    ∀ (l : Option Nat), l ∈ scanTargets D instrs →
    ∃ t ∈ instrs,
      (t.2.1 ∈ D.hasjrel ∧ ∃ v, t.2.2 = some v ∧ l = some (t.1 + 2 + v)) ∨
      (¬ t.2.1 ∈ D.hasjrel ∧ t.2.1 ∈ D.hasjabs ∧ l = t.2.2) := by
  induction instrs with
  | nil => intro l h; simp [scanTargets] at h
  | cons t rest ih =>
    intro l h
    obtain ⟨offset, opcode, oparg⟩ := t
    by_cases hjrel : opcode ∈ D.hasjrel
    · cases oparg with
      | none =>
        simp only [scanTargets, if_pos hjrel] at h
        obtain ⟨t2, ht2, hp⟩ := ih l h
        exact ⟨t2, List.mem_cons_of_mem _ ht2, hp⟩
      | some a =>
        simp only [scanTargets, if_pos hjrel] at h
        rcases List.mem_cons.mp h with rfl | h
        · exact ⟨(offset, opcode, some a), List.mem_cons_self _ _,
            Or.inl ⟨hjrel, a, rfl, rfl⟩⟩
        · obtain ⟨t2, ht2, hp⟩ := ih l h
          exact ⟨t2, List.mem_cons_of_mem _ ht2, hp⟩
    · simp only [scanTargets, if_neg hjrel] at h
      by_cases hjabs : opcode ∈ D.hasjabs
      · rw [if_pos hjabs] at h
        rcases List.mem_cons.mp h with rfl | h
        · exact ⟨(offset, opcode, l), List.mem_cons_self _ _,
            Or.inr ⟨hjrel, hjabs, rfl⟩⟩
        · obtain ⟨t2, ht2, hp⟩ := ih l h
          exact ⟨t2, List.mem_cons_of_mem _ ht2, hp⟩
      · rw [if_neg hjabs] at h
        obtain ⟨t2, ht2, hp⟩ := ih l h
        exact ⟨t2, List.mem_cons_of_mem _ ht2, hp⟩

theorem disLoop_ok_shape (D : DisTables) (c : CodeObj) (ls : List (Nat × Int))
    (lbs : List (Option Nat)) :
    ∀ (instrs : List (Nat × Nat × Option Nat)) (recs : List Record) (cos : List CodeObj),
    disLoop D c ls lbs instrs = (recs, cos, Option.none) →
    recs.length = instrs.length ∧
    (∀ k (hk : k < instrs.length) (hk2 : k < recs.length),
      ∃ line tgt argv, recs.get ⟨k, hk2⟩ =
        Record.instr line tgt (instrs.get ⟨k, hk⟩).1 (instrs.get ⟨k, hk⟩).2.1
          (instrs.get ⟨k, hk⟩).2.2 argv) ∧
    cos = instrs.filterMap (resolvedCodeObj D c) := by
  intro instrs
  induction instrs with
  | nil =>
    intro recs cos h
    simp only [disLoop, Prod.mk.injEq] at h
    obtain ⟨h1, h2, -⟩ := h
    subst h1
    subst h2
    refine ⟨rfl, ?_, by simp⟩
    intro k hk
    exact absurd hk (by simp)
  | cons t rest ih =>
    intro recs cos h
    obtain ⟨offset, opcode, oparg⟩ := t
    simp only [disLoop] at h
    cases hg : get_argvalue D offset c opcode oparg with
    | error e =>
      rw [hg] at h
      simp only [Prod.mk.injEq] at h
      exact absurd h.2.2 (by simp)
    | ok argvalue =>
      rw [hg] at h
      rcases htl : disLoop D c ls lbs rest with ⟨recs0, cos0, err0⟩
      rw [htl] at h
      simp only [Prod.mk.injEq] at h
      obtain ⟨h1, h2, h3⟩ := h
      subst h1
      subst h2
      have herr : err0 = Option.none := h3
      subst herr
      obtain ⟨ihlen, ihidx, ihcos⟩ := ih recs0 cos0 htl
      refine ⟨by simp [ihlen], ?_, ?_⟩
      · intro k hk hk2
        cases k with
        | zero =>
          exact ⟨dictGet ls offset, decide (some offset ∈ lbs), argvalue, rfl⟩
        | succ k =>
          simp only [List.get_cons_succ]
          exact ihidx k (by simpa using hk) (by simpa using hk2)
      · cases argvalue with
        | vObj o =>
          cases o with
          | code oc =>
            simp only [List.filterMap_cons, resolvedCodeObj, hg]
            exact congrArg _ ihcos
          | none =>
            simp only [List.filterMap_cons, resolvedCodeObj, hg]
            exact ihcos
          | int n =>
            simp only [List.filterMap_cons, resolvedCodeObj, hg]
            exact ihcos
          | str s =>
            simp only [List.filterMap_cons, resolvedCodeObj, hg]
            exact ihcos
        | vNone =>
          simp only [List.filterMap_cons, resolvedCodeObj, hg]
          exact ihcos
        | vStr s =>
          simp only [List.filterMap_cons, resolvedCodeObj, hg]
          exact ihcos
        | vFuncRef =>
          simp only [List.filterMap_cons, resolvedCodeObj, hg]
          exact ihcos

theorem disChildren_ok (recur : CodeObj → List Record × Option PyErr) :
    ∀ (cos : List CodeObj), (disChildren recur cos).2 = Option.none →
    (disChildren recur cos).1 =
      (cos.map (fun oc => Record.header oc :: (recur oc).1)).flatten := by
  intro cos
  induction cos with
  | nil => intro _; simp [disChildren]
  | cons oc rest ih =>
    intro h
    simp only [disChildren] at h ⊢
    cases hr : (recur oc).2 with
    | some err =>
      rw [hr] at h
      simp at h
    | none =>
      rw [hr] at h
      simp only at h ⊢
      rw [ih h]
      simp [List.cons_append]

/-- C1: the claim says get_argvalue resolves a relative jump at offset 20
with raw operand 6 to a value reflecting destination 28.  The code
instead overwrites the computed destination with a reference to the
resolver function itself: at exactly that input (opcode 93 is in
hasjrel) the result is the vFuncRef placeholder, the string
"to " ++ repr(get_argvalue), which carries no destination offset.  This
evaluates the code at the failing input of the code_bug. -/
theorem C1_relative_jump_placeholder :
    (93 ∈ sampleTables.hasjrel) ∧
    get_argvalue sampleTables 20 (mkUnit [] [] [] 1) 93 (some 6) =
      .ok ArgVal.vFuncRef :=
  ⟨by decide, rfl⟩

/-- C2: two consecutive extended-argument instructions with operand
bytes 0x01 and 0x02 followed by an argument-bearing instruction with
operand byte 0x03 decode to the raw operand 0x010203 (= 66051) for the
final instruction, because each extension step shifts the whole
accumulated value left by 8; the result is not 0x0203. -/
theorem C2_extended_arg_chaining :
    unpack_op [144, 1, 144, 2, 100, 3] =
      .ok [(0, 144, some 1), (2, 144, some 0x0102), (4, 100, some 0x010203)] ∧
    decide ((0x010203 : Nat) = 0x0203) = false :=
  ⟨rfl, by decide⟩

/-- C3 counterexample: the claim says the accumulator is zero after any
non-extension opcode, including opcodes below the has-argument
threshold.  Decoding [144, 1, 9, 0] refutes it: after the instruction
with opcode 9 (below the threshold, not EXTENDED_ARG) the accumulator is
still 256, and a following argument-bearing instruction absorbs that
stale value (raw operand 259 = 3 lor 256 in the second run). -/
theorem C3_counterexample_stale_accumulator :
    unpackTrace 0 0 [144, 1, 9, 0] =
      .ok [(0, 144, some 1, 256), (2, 9, Option.none, 256)] ∧
    decide ((9 : Nat) = EXTENDED_ARG) = false ∧
    decide ((256 : Nat) = 0) = false ∧
    unpack_op [144, 1, 9, 0, 100, 3] =
      .ok [(0, 144, some 1), (2, 9, Option.none), (4, 100, some 259)] :=
  ⟨rfl, by decide, by decide, rfl⟩

/-- C3 amended: the accumulator is set to a nonzero value only by the
extended-argument opcode, and it is reset to zero after a non-extension
opcode at or above the has-argument threshold; an opcode below the
threshold leaves the accumulator unchanged (it is consumed and cleared
only at the next argument-bearing non-extension step). -/
theorem C3_amended_accumulator_invariant :
    (∀ (ea i : Nat) (bc : List Nat) (tr : List (Nat × Nat × Option Nat × Nat)),
      unpackTrace ea i bc = .ok tr →
      ∀ e ∈ tr,
        (HAVE_ARGUMENT ≤ e.2.1 → e.2.1 ≠ EXTENDED_ARG → e.2.2.2 = 0) ∧
        (e.2.1 = EXTENDED_ARG → ∃ v, e.2.2.1 = some v ∧ e.2.2.2 = v <<< 8)) ∧
    (∀ (ea i opcode : Nat) (rest : List Nat), opcode < HAVE_ARGUMENT →
      unpackTrace ea i (opcode :: rest) =
        Except.map (fun tl => (i, opcode, Option.none, ea) :: tl)
          (unpackTrace ea (i + 2) (rest.drop 1))) := by
  refine ⟨fun ea i bc tr h => unpackTrace_acc bc ea i tr h, ?_⟩
  intro ea i opcode rest hlt
  cases rest with
  | nil =>
    simp [unpackTrace, Nat.not_le.mpr hlt, Except.map]
  | cons b rest2 =>
    cases hu : unpackTrace ea (i + 2) rest2 with
    | error e => simp [unpackTrace, Nat.not_le.mpr hlt, hu, Except.map]
    | ok tl => simp [unpackTrace, Nat.not_le.mpr hlt, hu, Except.map]

/-- C3 amended witness: concrete instances of both parts — after the
argument-bearing non-extension opcode 100 the accumulator is 0, and a
below-threshold opcode passes the accumulator 256 through unchanged. -/
theorem C3_amended_witness :
    unpackTrace 0 0 [144, 1, 100, 3] =
      .ok [(0, 144, some 1, 256), (2, 100, some 259, 0)] ∧
    ((2, 100, some 259, 0) : Nat × Nat × Option Nat × Nat).2.2.2 = 0 ∧
    (9 : Nat) < HAVE_ARGUMENT ∧
    unpackTrace 256 2 [9, 0] =
      Except.map (fun tl => (2, 9, Option.none, 256) :: tl)
        (unpackTrace 256 4 []) := by
  refine ⟨rfl, ?_, by decide,
    by simpa using C3_amended_accumulator_invariant.2 256 2 9 [0] (by decide)⟩
  exact (C3_amended_accumulator_invariant.1 0 0 [144, 1, 100, 3]
    [(0, 144, some 1, 256), (2, 100, some 259, 0)] rfl
    (2, 100, some 259, 0) (by decide)).1 (by decide) (by decide)

/-- C4: find_linestarts interprets a line-increment byte at or above 128
as the negative delta value minus 256, and on the unit with first line
10 and encoded delta pairs (0,0), (4,1), (6,255) it returns the mapping
0 to 10, 4 to 11, 10 to 10. -/
theorem C4_linestarts_signed_deltas :
    (∀ b : Nat, 0x80 ≤ b → signedLineIncr b = (b : Int) - 0x100) ∧
    find_linestarts lineUnit = [(0, 10), (4, 11), (10, 10)] :=
  ⟨fun b hb => by simp [signedLineIncr, hb], rfl⟩

/-- C4 witness: the signed reinterpretation at the concrete byte 255. -/
theorem C4_linestarts_witness :
    0x80 ≤ (255 : Nat) ∧ signedLineIncr 255 = (255 : Int) - 0x100 :=
  ⟨by decide, C4_linestarts_signed_deltas.1 255 (by decide)⟩

/-- C5 counterexample: the claim says the mapping has exactly n + 1
entries for n encoded delta pairs.  lineUnit encodes 3 pairs, but its
first pair has byte-increment 0, so the dict entry for offset 0 is
overwritten in place and the mapping has 3 entries, not 4. -/
theorem C5_counterexample_overwritten_offset :
    lnotabPairCount lineUnit = 3 ∧
    (find_linestarts lineUnit).length = 3 ∧
    decide ((find_linestarts lineUnit).length = lnotabPairCount lineUnit + 1) = false :=
  ⟨rfl, rfl, by decide⟩

theorem dictSet_length_le (d : List (Nat × Int)) (k : Nat) (v : Int) :
    (dictSet d k v).length ≤ d.length + 1 := by
  unfold dictSet
  split
  · simp only [List.length_map]
    omega
  · simp only [List.length_append, List.length_cons, List.length_nil]
    omega

theorem foldl_dict_length_le
    (f : Nat × Int × List (Nat × Int) → Nat × Nat → Nat × Int × List (Nat × Int))
    (hf : ∀ st p, ((f st p).2.2).length ≤ st.2.2.length + 1) :
    ∀ (pairs : List (Nat × Nat)) (st : Nat × Int × List (Nat × Int)),
    ((pairs.foldl f st).2.2).length ≤ st.2.2.length + pairs.length := by
  intro pairs
  induction pairs with
  | nil => intro st; simp
  | cons p ps ih =>
    intro st
    have h1 := ih (f st p)
    have h2 := hf st p
    simp only [List.foldl_cons, List.length_cons]
    omega

/-- C5 amended: the mapping returned by find_linestarts contains at most
n + 1 entries for n encoded delta pairs (one potential entry per pair
plus the entry for offset 0); a pair whose running offset repeats an
already-recorded offset overwrites that entry in place instead of adding
one, so the count can be lower. -/
theorem C5_amended_at_most_entries :
    ∀ (c : CodeObj), (find_linestarts c).length ≤ lnotabPairCount c + 1 := by
  intro c
  unfold find_linestarts lnotabPairCount
  have := foldl_dict_length_le
    (fun st p =>
      (st.1 + p.1, st.2.1 + signedLineIncr p.2,
        dictSet st.2.2 (st.1 + p.1) (st.2.1 + signedLineIncr p.2)))
    (fun st p => dictSet_length_le st.2.2 (st.1 + p.1) (st.2.1 + signedLineIncr p.2))
    ((sliceEvery2 c.co_lnotab).zip (sliceEvery2 (c.co_lnotab.drop 1)))
    (0, c.co_firstlineno, [(0, c.co_firstlineno)])
  simp at this ⊢
  omega

/-- C6: whenever find_labels succeeds, its result has no duplicates, is
exactly the first-occurrence deduplication of the jump destinations in
scan order (order of first discovery during the single ascending-offset
scan), and every member is either offset + 2 + raw operand of a
relative-jump instruction or the raw operand of an absolute-jump
instruction of the same unit. -/
theorem C6_find_labels_sound :
    ∀ (D : DisTables) (c : CodeObj) (ls : List (Option Nat)),
    find_labels D c = .ok ls →
    ls.Nodup ∧
    ∃ instrs, unpack_op c.co_code = .ok instrs ∧
      ls = firstDedup (scanTargets D instrs) ∧
      ∀ l ∈ ls, ∃ t ∈ instrs,
        (t.2.1 ∈ D.hasjrel ∧ ∃ v, t.2.2 = some v ∧ l = some (t.1 + 2 + v)) ∨
        (¬ t.2.1 ∈ D.hasjrel ∧ t.2.1 ∈ D.hasjabs ∧ l = t.2.2) := by
  intro D c ls h
  unfold find_labels at h
  cases hu : unpack_op c.co_code with
  | error e =>
    rw [hu] at h
    exact Except.noConfusion h
  | ok instrs =>
    rw [hu] at h
    have h2 : labelsLoop D [] instrs = .ok ls := h
    have heq := labelsLoop_eq D instrs [] ls h2
    simp only [List.nil_append] at heq
    have heq2 : ls = firstDedup (scanTargets D instrs) := by
      rw [heq]
      congr 1
      apply List.filter_eq_self.mpr
      intro a _
      simp
    refine ⟨?_, instrs, rfl, heq2, ?_⟩
    · rw [heq2]
      exact firstDedup_nodup _
    · intro l hl
      have hmem : l ∈ scanTargets D instrs := by
        rw [heq2] at hl
        exact (firstDedup_mem _ l).mp hl
      exact scanTargets_mem D instrs l hmem

/-- C6 witness: on a unit with two relative jumps sharing destination 4
and an absolute jump to 6, find_labels succeeds with [4, 6] and that
list has no duplicates. -/
theorem C6_find_labels_witness :
    find_labels sampleTables jumpUnit = .ok [some 4, some 6] ∧
    ([some 4, some 6] : List (Option Nat)).Nodup :=
  ⟨rfl, (C6_find_labels_sound sampleTables jumpUnit [some 4, some 6] rfl).1⟩

/-- C7: the claim says a byte sequence of odd length always fails with a
format error and is never decoded as if the trailing byte were a
complete instruction.  The code has no length check: on the odd-length
sequence [9] (opcode 9 is below the has-argument threshold) unpack_op
succeeds and yields the trailing byte as a complete instruction.  This
evaluates the code at the failing input of the code_bug. -/
theorem C7_odd_length_silently_decoded :
    unpack_op [9] = .ok [(0, 9, Option.none)] := rfl

/-- C8: disassemble rejects any value that is not a code object (the
hasattr co_code probe fails) with TypeError at once, emitting no record,
for every table instance and every recursion budget. -/
theorem C8_nonunit_rejected :
    ∀ (D : DisTables) (fuel : Nat) (v : PyObj), hasCoCode v = false →
    disassemble D fuel v = ([], some PyErr.typeError) := by
  intro D fuel v h
  cases v with
  | none => cases fuel <;> rfl
  | int n => cases fuel <;> rfl
  | str s => cases fuel <;> rfl
  | code c => simp [hasCoCode] at h

/-- C8 witness: the integer 5 is not a code object and is rejected. -/
theorem C8_nonunit_witness :
    hasCoCode (PyObj.int 5) = false ∧
    disassemble sampleTables 3 (PyObj.int 5) = ([], some PyErr.typeError) :=
  ⟨rfl, C8_nonunit_rejected sampleTables 3 (PyObj.int 5) rfl⟩

/-- C10 counterexample: the claim says a null cell/free-variable-name
table makes get_argvalue return absent for an opcode of that category.
Instead, the concatenation co_cellvars + co_freevars at the top of
get_argvalue raises TypeError when co_cellvars is null (opcode 135 is in
hasfree), so the function errors rather than returning absent. -/
theorem C10_counterexample_null_cell_table :
    (135 ∈ sampleTables.hasfree) ∧
    nullCellUnit.co_cellvars = Option.none ∧
    get_argvalue sampleTables 0 nullCellUnit 135 (some 0) =
      .error PyErr.typeError :=
  ⟨by decide, rfl, rfl⟩

/-- C10 amended: the null guards of get_argvalue work for the constant
pool, the name table and the local-variable-name table — a null table of
the dispatched category yields the absent value instead of an error —
but a null cell-variable or free-variable table raises TypeError for
every opcode category, because the two attributes are concatenated
unguarded before any dispatch. -/
theorem C10_amended_null_guards :
    ∀ (D : DisTables) (offset : Nat) (c : CodeObj) (opcode : Nat) (oparg : Option Nat),
    (c.co_cellvars = Option.none →
      get_argvalue D offset c opcode oparg = .error PyErr.typeError) ∧
    (c.co_freevars = Option.none →
      get_argvalue D offset c opcode oparg = .error PyErr.typeError) ∧
    (∀ cv fv, c.co_cellvars = some cv → c.co_freevars = some fv →
      c.co_consts = Option.none → opcode ∈ D.hasconst →
      get_argvalue D offset c opcode oparg = .ok ArgVal.vNone) ∧
    (∀ cv fv, c.co_cellvars = some cv → c.co_freevars = some fv →
      c.co_names = Option.none → ¬ opcode ∈ D.hasconst → opcode ∈ D.hasname →
      get_argvalue D offset c opcode oparg = .ok ArgVal.vNone) ∧
    (∀ cv fv, c.co_cellvars = some cv → c.co_freevars = some fv →
      c.co_varnames = Option.none → ¬ opcode ∈ D.hasconst →
      ¬ opcode ∈ D.hasname → ¬ opcode ∈ D.hasjrel → opcode ∈ D.haslocal →
      get_argvalue D offset c opcode oparg = .ok ArgVal.vNone) := by
  intro D offset c opcode oparg
  obtain ⟨code, consts, names, varnames, cellvars, freevars, lnotab, fl⟩ := c
  refine ⟨?_, ?_, ?_, ?_, ?_⟩
  · intro h
    simp only [CodeObj.co_cellvars] at h
    subst h
    simp [get_argvalue, CodeObj.co_cellvars]
  · intro h
    simp only [CodeObj.co_freevars] at h
    subst h
    cases cellvars <;>
      simp [get_argvalue, CodeObj.co_cellvars, CodeObj.co_freevars]
  · intro cv fv h1 h2 h3 hmem
    simp only [CodeObj.co_cellvars] at h1
    simp only [CodeObj.co_freevars] at h2
    simp only [CodeObj.co_consts] at h3
    subst h1
    subst h2
    subst h3
    simp [get_argvalue, CodeObj.co_cellvars, CodeObj.co_freevars,
      CodeObj.co_consts, hmem]
  · intro cv fv h1 h2 h3 hnc hmem
    simp only [CodeObj.co_cellvars] at h1
    simp only [CodeObj.co_freevars] at h2
    simp only [CodeObj.co_names] at h3
    subst h1
    subst h2
    subst h3
    simp [get_argvalue, CodeObj.co_cellvars, CodeObj.co_freevars,
      CodeObj.co_names, hnc, hmem]
  · intro cv fv h1 h2 h3 hnc hnn hnj hmem
    simp only [CodeObj.co_cellvars] at h1
    simp only [CodeObj.co_freevars] at h2
    simp only [CodeObj.co_varnames] at h3
    subst h1
    subst h2
    subst h3
    simp [get_argvalue, CodeObj.co_cellvars, CodeObj.co_freevars,
      CodeObj.co_varnames, hnc, hnn, hnj, hmem]

/-- C10 amended witness: a null constant pool with the constant-load
opcode 100 resolves to the absent value. -/
theorem C10_amended_witness :
    nullConstsUnit.co_consts = Option.none ∧ (100 ∈ sampleTables.hasconst) ∧
    get_argvalue sampleTables 0 nullConstsUnit 100 (some 0) = .ok ArgVal.vNone := by
  refine ⟨rfl, by decide, ?_⟩
  exact (C10_amended_null_guards sampleTables 0 nullConstsUnit 100
    (some 0)).2.2.1 [] [] rfl rfl rfl (by decide)

/-- C9: for a successful run, disassemble emits exactly one instruction
record per decoded instruction, carrying that instruction's offset,
opcode and raw operand, with offsets strictly ascending; the complete
parent listing comes first, followed — for each resolved operand value
that is itself a code object, in the order encountered during the
parent's pass — by that nested unit's header and its own full output. -/
theorem C9_engine_order :
    ∀ (D : DisTables) (fuel : Nat) (c : CodeObj) (out : List Record),
    disassemble D (fuel + 1) (.code c) = (out, Option.none) →
    ∃ instrs recs cos,
      unpack_op c.co_code = .ok instrs ∧
      recs.length = instrs.length ∧
      (∀ k (hk : k < instrs.length) (hk2 : k < recs.length),
        ∃ line tgt argv, recs.get ⟨k, hk2⟩ =
          Record.instr line tgt (instrs.get ⟨k, hk⟩).1 (instrs.get ⟨k, hk⟩).2.1
            (instrs.get ⟨k, hk⟩).2.2 argv) ∧
      (instrs.map (fun t => t.1)).Pairwise (· < ·) ∧
      cos = instrs.filterMap (resolvedCodeObj D c) ∧
      out = recs ++
        (cos.map (fun oc =>
          Record.header oc :: (disassemble D fuel (PyObj.code oc)).1)).flatten := by
  intro D fuel c out h
  simp only [disassemble] at h
  cases hfl : find_labels D c with
  | error e =>
    rw [hfl] at h
    simp at h
  | ok labels =>
    rw [hfl] at h
    cases hu : unpack_op c.co_code with
    | error e =>
      rw [hu] at h
      simp at h
    | ok instrs =>
      rw [hu] at h
      simp only [] at h
      rcases hdl : disLoop D c (find_linestarts c) labels instrs with ⟨recs, cos, err⟩
      rw [hdl] at h
      cases err with
      | some e => simp at h
      | none =>
        simp only [Prod.mk.injEq] at h
        obtain ⟨h1, h2⟩ := h
        obtain ⟨hlen, hidx, hcos⟩ :=
          disLoop_ok_shape D c (find_linestarts c) labels instrs recs cos hdl
        refine ⟨instrs, recs, cos, rfl, hlen, hidx, ?_, hcos, ?_⟩
        · unfold unpack_op at hu
          cases htr : unpackTrace 0 0 c.co_code with
          | error e =>
            rw [htr] at hu
            simp [Except.map] at hu
          | ok tr =>
            rw [htr] at hu
            simp only [Except.map] at hu
            injection hu with hu
            subst hu
            have hpw := (unpackTrace_offsets c.co_code 0 0 tr htr).2
            rw [List.map_map]
            exact hpw
        · rw [← h1]
          congr 1
          exact disChildren_ok _ cos h2

/-- C9 witness: the concrete parent unit with constants
[5, nestedUnit1, "B", nestedUnit2] runs without error, and the theorem
applies to its output. -/
theorem C9_engine_order_witness :
    disassemble sampleTables 2 (PyObj.code parentUnit) = (parentOut, Option.none) ∧
    ∃ instrs recs cos,
      unpack_op parentUnit.co_code = .ok instrs ∧
      recs.length = instrs.length ∧
      (∀ k (hk : k < instrs.length) (hk2 : k < recs.length),
        ∃ line tgt argv, recs.get ⟨k, hk2⟩ =
          Record.instr line tgt (instrs.get ⟨k, hk⟩).1 (instrs.get ⟨k, hk⟩).2.1
            (instrs.get ⟨k, hk⟩).2.2 argv) ∧
      (instrs.map (fun t => t.1)).Pairwise (· < ·) ∧
      cos = instrs.filterMap (resolvedCodeObj sampleTables parentUnit) ∧
      parentOut = recs ++
        (cos.map (fun oc =>
          Record.header oc :: (disassemble sampleTables 1 (PyObj.code oc)).1)).flatten :=
  ⟨rfl, C9_engine_order sampleTables 1 parentUnit parentOut rfl⟩
